import Mathlib

/-!
sds_extra: substring search and character-set removal over sds byte strings.

A shallow embedding of `sds_extra.c`.

* A byte is a natural number (the value of an `unsigned char`); an sds byte
  string is the list of its `sdslen` content bytes.  In memory the content is
  followed by a zero terminator and then by whatever bytes lie behind it
  (`spare`), see `sdsmem`.
* A C pointer into a buffer is an index into the list that models the buffer;
  the library routines `memchr`, `memcmp`, `strlen` work on the bytes visible
  from the pointer (the list from that index on).
* A C string argument (`char *cset`) is `Option (List Nat)`: `none` is the
  NULL pointer, `some c` a buffer holding the bytes `c` followed by the zero
  terminator.
* A `size_t` is a natural number.  An `int` loop index is kept as its 32-bit
  pattern with the increment taken modulo `2^32` (`int_incr`), and its
  comparison with a `size_t` converts it to `size_t` first (`int_lt_size`), so
  the loops of `sdschremove` and `sdscasechremove` stop once the index has
  passed `INT_MAX`.
-/

namespace SdsExtra

/-! ## Library primitives -/

/-- Length of an sds byte string: `sdslen`. -/
def sdslen (s : List Nat) : Nat := s.length

/-- Memory visible from an sds pointer: the content bytes, the zero terminator
the library always keeps behind them, and the bytes that follow it. -/
def sdsmem (s spare : List Nat) : List Nat := s ++ 0 :: spare

/-- C `strlen(ptr)` on the bytes visible from `ptr`: the number of bytes
before the first zero byte. -/
def strlen : List Nat → Nat
  | [] => 0
  | b :: bs => if b = 0 then 0 else strlen bs + 1

/-- C `memchr(ptr, c, n)` on the bytes visible from `ptr`: the offset of the
first byte equal to `c` among the first `n` bytes, `none` for NULL. -/
def memchr : List Nat → Nat → Nat → Option Nat
  | _, _, 0 => none
  | [], _, _ + 1 => none
  | b :: bs, c, n + 1 => if b = c then some 0 else (memchr bs c n).map (· + 1)

/-- C `memcmp(ptr, needle, needle_len)` on the bytes visible from `ptr`,
comparing byte by byte as unsigned values; a byte outside the modelled memory
differs from every needle byte. -/
def memcmp : List Nat → List Nat → Int
  | _, [] => 0
  | [], _ :: _ => 1
  | a :: as, b :: bs => if a = b then memcmp as bs else if a < b then -1 else 1

/-- Modelled from the spec: `sdscmp` of the underlying string library (declared
in `sds.h`, its body is not part of the source).  The spec only fixes that the
result is zero exactly when the two buffers are byte-equal, and `sdssds` only
tests the result against zero. -/
def sdscmp (s1 s2 : List Nat) : Int := if s1 = s2 then 0 else 1

/-! ## The int index of the loops -/

/-- The statement `i++` on an `int i` kept as its 32-bit pattern (the negative
values are the patterns from `2^31` on): the increment of `INT_MAX` (pattern
`2^31 - 1`) gives `INT_MIN` (pattern `2^31`), as the compiled code does. -/
def int_incr (i : Nat) : Nat := (i + 1) % 2 ^ 32

/-- The test `i < len` of an `int i` (32-bit pattern) against a `size_t len`.
The `int` is converted to `size_t`: a non-negative `i` keeps its value, a
negative `i` (pattern from `2^31` on) becomes a value of at least
`2^64 - 2^31`, above the length of every buffer that fits in memory, so the
test fails for it. -/
@[reducible] def int_lt_size (i len : Nat) : Prop := i < 2 ^ 31 ∧ i < len

/-! ## sdschremove -/

/-- The inner loop of `sdschremove`,
`for (ptr = cset; *ptr && i < len; ptr++) if (*src == *ptr) { src++; i++; ptr = cset; }`,
started with the `int` subject index `i` (its 32-bit pattern; `src == s + i`
whenever a byte is read, since `src` and `i` are advanced together and a byte
is read only behind a test `i < len` that has passed) and the set cursor
`ptr == cset + j`; the result is the value of `i` when the loop exits.
After a removal the cursor is reset to `cset` and then advanced by the `ptr++`
of the loop header, so the scan goes on at `cset + 1`. -/
def chremove_inner (s cset : List Nat) (i j : Nat) : Nat :=
  if cset.getD j 0 ≠ 0 ∧ int_lt_size i s.length then
    if s.getD i 0 = cset.getD j 0 then
      chremove_inner s cset (int_incr i) (0 + 1)
    else
      chremove_inner s cset i (j + 1)
  else i
termination_by (2 ^ 31 - i, cset.length - j)
decreasing_by
  · rename_i h _
    have hinc : int_incr i = i + 1 := by
      unfold int_incr
      omega
    rw [hinc]
    exact Prod.Lex.left _ _ (by omega)
  · rename_i h _
    have hj : j < cset.length := by
      by_contra hlt
      exact h.1 (List.getD_eq_default _ _ (by omega))
    exact Prod.Lex.right _ (by omega)

/-- The outer loop of `sdschremove`, `for (int i = 0; i < len; i++)` with
`size_t len`, with the bytes written to `purgedstr` so far in `dst` (so
`newlen == dst.length`).  Returns the bytes written and the final value of `i`
(its 32-bit pattern). -/
def chremove_outer (s cset : List Nat) (i : Nat) (dst : List Nat) : List Nat × Nat :=
  if int_lt_size i s.length then
    if int_lt_size (chremove_inner s cset i 0) s.length then
      chremove_outer s cset (int_incr (chremove_inner s cset i 0))
        (dst ++ [s.getD (chremove_inner s cset i 0) 0])
    else
      chremove_outer s cset (int_incr (chremove_inner s cset i 0)) dst
  else (dst, i)
termination_by 2 ^ 32 - i
decreasing_by
  all_goals
    rename_i hi _
    have key : ∀ a b, a ≤ 2 ^ 31 →
        a ≤ chremove_inner s cset a b ∧ chremove_inner s cset a b ≤ 2 ^ 31 := by
      intro a b
      induction a, b using chremove_inner.induct s cset with
      | case1 a b h heq ih =>
        intro _
        have ha : a < 2 ^ 31 := h.2.1
        have hinc : int_incr a = a + 1 := by
          unfold int_incr
          omega
        rw [chremove_inner, if_pos h, if_pos heq]
        rw [hinc] at ih ⊢
        have := ih (by omega)
        omega
      | case2 a b h hne ih =>
        intro ha
        rw [chremove_inner, if_pos h, if_neg hne]
        exact ih ha
      | case3 a b h =>
        intro ha
        rw [chremove_inner, if_neg h]
        omega
    have := key i 0 (by omega)
    unfold int_incr
    omega

/-- The function `sdschremove(s, cset)`: the content of the returned sds. -/
def sdschremove (s : List Nat) (cset : Option (List Nat)) : List Nat :=
  match cset with
  | none => s
  | some c =>
    if sdslen s = 0 ∨ strlen c = 0 then s
    else (chremove_outer s c 0 []).1

/-- One membership scan of the inner loop: whether the subject byte `c` equals
a set byte met by the cursor walking `ptr` up to the first zero byte. -/
def inScan (c : Nat) : List Nat → Bool
  | [] => false
  | p :: ps => if p = 0 then false else if c = p then true else inScan c ps

/-- The two loops of `sdschremove` as one recursion over the unread subject
bytes `src`, with `ptr` the place in the set where the scan of the next byte
starts: `cset` after a copied byte, `cset + 1` after a removed one
(`chremove_outer_purge` proves that the loops compute this). -/
def purge (cset : List Nat) : List Nat → List Nat → List Nat
  | [], _ => []
  | c :: src, ptr =>
    if inScan c ptr then purge cset src (cset.drop 1) else c :: purge cset src cset

/-! ## sdssds -/

/-- The scan loop of `sdssds`,
`for (ptr = memchr(haystack, chr, haystack_len); ptr != NULL; ptr = memchr(ptr, chr, ptr_len))`,
entered with the value of `ptr` (`none` for NULL, `some p` for `haystack + p`);
`mem` is the memory visible from `haystack`. -/
def sdssds_loop (mem needle : List Nat) (chr : Nat) (ptr : Option Nat) : Int :=
  match ptr with
  | none => -1
  | some p =>
    if memcmp (mem.drop p) needle = 0 then 1
    else
      sdssds_loop mem needle chr
        ((memchr (mem.drop (p + 1)) chr (strlen (mem.drop (p + 1)))).map (· + (p + 1)))
termination_by (match ptr with | none => 0 | some p => mem.length - p + 1)
decreasing_by
  have key : ∀ (l : List Nat) (c n o : Nat), memchr l c n = some o → o < l.length := by
    intro l
    induction l with
    | nil => intro c n o h; cases n <;> simp [memchr] at h
    | cons b bs ih =>
      intro c n o h
      cases n with
      | zero => simp [memchr] at h
      | succ n =>
        rw [memchr] at h
        split at h
        · cases h; simp
        · cases hm : memchr bs c n with
          | none => rw [hm] at h; cases h
          | some k =>
            rw [hm] at h
            cases h
            have := ih c n k hm
            simp only [List.length_cons]
            omega
  cases hm : memchr (mem.drop (p + 1)) chr (strlen (mem.drop (p + 1))) with
  | none => simp
  | some o =>
    have := key _ _ _ _ hm
    rw [List.length_drop] at this
    show mem.length - (o + (p + 1)) + 1 < mem.length - p + 1
    omega

/-- The function `sdssds(haystack, needle)`; `spare` holds the bytes that lie
behind the terminator of `haystack` in memory. -/
def sdssds (haystack needle spare : List Nat) : Int :=
  if sdslen haystack = 0 ∨ sdslen needle = 0 ∨ sdslen haystack < sdslen needle then -1
  else if sdslen haystack = sdslen needle then
    (if sdscmp haystack needle ≠ 0 then -1 else 0)
  else
    sdssds_loop (sdsmem haystack spare) needle (needle.getD 0 0)
      (memchr (sdsmem haystack spare) (needle.getD 0 0) (sdslen haystack))

/-! ## The haystack bytes read by the scan of sdssds -/

/-- The indices read by `strlen(ptr)`, for `ptr == haystack + p`: every byte up
to and including the first zero byte. -/
def strlen_reads : List Nat → Nat → List Nat
  | [], p => [p]
  | b :: bs, p => p :: (if b = 0 then [] else strlen_reads bs (p + 1))

/-- The indices read by `memchr(ptr, c, n)`, for `ptr == haystack + p`: every
byte up to and including the first one equal to `c`, at most `n` of them. -/
def memchr_reads : List Nat → Nat → Nat → Nat → List Nat
  | _, _, 0, _ => []
  | [], _, _ + 1, p => [p]
  | b :: bs, c, n + 1, p => p :: (if b = c then [] else memchr_reads bs c n (p + 1))

/-- The indices a `memcmp(ptr, needle, needle_len)` cannot avoid reading, for
`ptr == haystack + p`: every byte up to and including the first one that
differs from the needle. -/
def memcmp_reads : List Nat → List Nat → Nat → List Nat
  | _, [], _ => []
  | [], _ :: _, p => [p]
  | a :: as, b :: bs, p => p :: (if a = b then memcmp_reads as bs (p + 1) else [])

/-- The haystack indices read by the scan loop of `sdssds` entered with `ptr`,
in the order of the reads: the comparison at the candidate, then `strlen` and
`memchr` behind it, then the rest of the loop. -/
def sdssds_loop_reads (mem needle : List Nat) (chr : Nat) (ptr : Option Nat) : List Nat :=
  match ptr with
  | none => []
  | some p =>
    memcmp_reads (mem.drop p) needle p ++
      (if memcmp (mem.drop p) needle = 0 then []
       else
        strlen_reads (mem.drop (p + 1)) (p + 1) ++
          memchr_reads (mem.drop (p + 1)) chr (strlen (mem.drop (p + 1))) (p + 1) ++
          sdssds_loop_reads mem needle chr
            ((memchr (mem.drop (p + 1)) chr (strlen (mem.drop (p + 1)))).map (· + (p + 1))))
termination_by (match ptr with | none => 0 | some p => mem.length - p + 1)
decreasing_by
  have key : ∀ (l : List Nat) (c n o : Nat), memchr l c n = some o → o < l.length := by
    intro l
    induction l with
    | nil => intro c n o h; cases n <;> simp [memchr] at h
    | cons b bs ih =>
      intro c n o h
      cases n with
      | zero => simp [memchr] at h
      | succ n =>
        rw [memchr] at h
        split at h
        · cases h; simp
        · cases hm : memchr bs c n with
          | none => rw [hm] at h; cases h
          | some k =>
            rw [hm] at h
            cases h
            have := ih c n k hm
            simp only [List.length_cons]
            omega
  cases hm : memchr (mem.drop (p + 1)) chr (strlen (mem.drop (p + 1))) with
  | none => simp
  | some o =>
    have := key _ _ _ _ hm
    rw [List.length_drop] at this
    show mem.length - (o + (p + 1)) + 1 < mem.length - p + 1
    omega

/-- The haystack indices read by the scan of `sdssds` (the code from
`chr = needle[0]` on); the early returns are taken before the scan reads
anything. -/
def sdssds_reads (haystack needle spare : List Nat) : List Nat :=
  if sdslen haystack = 0 ∨ sdslen needle = 0 ∨ sdslen haystack < sdslen needle then []
  else if sdslen haystack = sdslen needle then []
  else
    memchr_reads (sdsmem haystack spare) (needle.getD 0 0) (sdslen haystack) 0 ++
      sdssds_loop_reads (sdsmem haystack spare) needle (needle.getD 0 0)
        (memchr (sdsmem haystack spare) (needle.getD 0 0) (sdslen haystack))

/-! ## Case folding: sdscasesds and sdscasechremove -/

/-- C `tolower` of `ctype.h` in the "C" locale, on the value of the byte: the
letters `A`..`Z` (65..90) go to `a`..`z`, every other byte is returned as is. -/
def tolower (c : Nat) : Nat := if 65 ≤ c ∧ c ≤ 90 then c + 32 else c

/-- C `toupper` of `ctype.h` in the "C" locale, on the value of the byte: the
letters `a`..`z` (97..122) go to `A`..`Z`, every other byte is returned as is. -/
def toupper (c : Nat) : Nat := if 97 ≤ c ∧ c ≤ 122 then c - 32 else c

/-- Modelled from the spec: `sdsdup` of the underlying string library (declared
in `sds.h`, its body is not part of the source): a fresh owned copy with the
same content bytes. -/
def sdsdup (s : List Nat) : List Nat := s

/-- Modelled from the spec: `sdstolower` of the underlying string library
(declared in `sds.h`, its body is not part of the source): folds every content
byte of the buffer it is given to lowercase with `tolower`. -/
def sdstolower (s : List Nat) : List Nat := s.map tolower

/-- The function `sdscasesds(haystack, needle)`: `sdssds` on the lowercase
copies `string` and `match` (here `mtch`) of the two arguments; `spare` holds
the bytes that lie behind the terminator of the copy `string` in memory. -/
def sdscasesds (haystack needle spare : List Nat) : Int :=
  let string := sdsdup haystack
  let mtch := sdsdup needle
  let string := sdstolower string
  let mtch := sdstolower mtch
  sdssds string mtch spare

/-- The lowercase form of a byte string in the words of the spec: each byte
mapped through ASCII `tolower`. -/
def lowercase (s : List Nat) : List Nat := s.map tolower

/-- The loop `for (i = 0; i < len; i++) ignorecase[i] = fold(cset[i]);` of
`sdscasechremove`, with `int i` (its 32-bit pattern) and `size_t len`, entered
at index `i`, where `fold` is `tolower` in the first loop and `toupper` in the
second; returns the buffer `ignorecase`. -/
def casefold_loop (fold : Nat → Nat) (cset : List Nat) (len i : Nat)
    (ignorecase : List Nat) : List Nat :=
  if int_lt_size i len then
    casefold_loop fold cset len (int_incr i) (ignorecase.set i (fold (cset.getD i 0)))
  else ignorecase
termination_by 2 ^ 31 - i
decreasing_by
  rename_i h
  unfold int_incr
  omega

/-- The body of `sdscasechremove(s, cset)` with the block that `malloc(len + 1)`
returned given as `block` (`len + 1` bytes of unspecified content): the content
of the returned sds.  `cset` holds the bytes of the set buffer (it is passed to
`strlen` unchecked, so it is not NULL). -/
def sdscasechremove_buf (s cset block : List Nat) : List Nat :=
  let len := strlen cset
  let ignorecase := block
  let ignorecase := casefold_loop tolower cset len 0 ignorecase
  let ignorecase := ignorecase.set len 0
  let s := sdschremove s (some ignorecase)
  let ignorecase := casefold_loop toupper cset len 0 ignorecase
  let ignorecase := ignorecase.set len 0
  sdschremove s (some ignorecase)

/-- The function `sdscasechremove(s, cset)` run with a block of zero bytes from
`malloc`.  When `strlen(cset)` is at most `2^31` every byte of the block is
written before it is read and the result is the same for every block
(`sdscasechremove_buf_eq`). -/
def sdscasechremove (s cset : List Nat) : List Nat :=
  sdscasechremove_buf s cset (List.replicate (strlen cset + 1) 0)

/-! ## The loops of sdschremove as a machine -/

/-- Control points of the two nested loops of `sdschremove`: the test of the
outer loop, the test of the inner loop, and the code behind the outer loop. -/
inductive LoopPc where
  | outer
  | inner
  | finished

/-- The variables of the loops of `sdschremove` at a control point: the `int`
subject index `i` (its 32-bit pattern), the set cursor `ptr == cset + j`, and
the bytes written to `purgedstr` (`newlen` is their number). -/
structure LoopState where
  pc : LoopPc
  i : Nat
  j : Nat
  dst : List Nat

/-- One step of the loops of `sdschremove`: from a loop test to the next one.
At the outer test the inner loop is entered with `ptr = cset`, or the loop is
left.  At the inner test either the body runs (on a match `src++; i++; ptr =
cset`, and in both cases the `ptr++` of the header), or the inner loop is left,
the byte at `src` is copied when `i < len`, and the `i++` of the outer header
runs. -/
def chremove_step (s cset : List Nat) (st : LoopState) : LoopState :=
  match st.pc with
  | LoopPc.outer =>
    if int_lt_size st.i s.length then LoopState.mk LoopPc.inner st.i 0 st.dst
    else LoopState.mk LoopPc.finished st.i st.j st.dst
  | LoopPc.inner =>
    if cset.getD st.j 0 ≠ 0 ∧ int_lt_size st.i s.length then
      if s.getD st.i 0 = cset.getD st.j 0 then
        LoopState.mk LoopPc.inner (int_incr st.i) (0 + 1) st.dst
      else
        LoopState.mk LoopPc.inner st.i (st.j + 1) st.dst
    else if int_lt_size st.i s.length then
      LoopState.mk LoopPc.outer (int_incr st.i) st.j (st.dst ++ [s.getD st.i 0])
    else
      LoopState.mk LoopPc.outer (int_incr st.i) st.j st.dst
  | LoopPc.finished => st

/-- The state after `n` steps of the loops. -/
def chremove_run (s cset : List Nat) : Nat → LoopState → LoopState
  | 0, st => st
  | n + 1, st => chremove_run s cset n (chremove_step s cset st)

/-! ## The loops of sdschremove compute `purge` -/

theorem int_incr_eq {i : Nat} (h : i < 2 ^ 32 - 1) : int_incr i = i + 1 := by
  unfold int_incr
  omega

theorem purge_cons_congr (cset : List Nat) (c : Nat) (src p q : List Nat)
    (h : inScan c p = inScan c q) :
    purge cset (c :: src) p = purge cset (c :: src) q := by
  simp only [purge, h]

theorem getD_ne_zero_lt {l : List Nat} {j : Nat} (h : l.getD j 0 ≠ 0) : j < l.length := by
  by_contra hlt
  exact h (List.getD_eq_default _ _ (by omega))

/-- The inner loop entered with a non-negative index leaves it between the
entry value and `2^31`. -/
theorem chremove_inner_bounds (s cset : List Nat) (i j : Nat) (hi : i ≤ 2 ^ 31) :
    i ≤ chremove_inner s cset i j ∧ chremove_inner s cset i j ≤ 2 ^ 31 := by
  induction i, j using chremove_inner.induct s cset with
  | case1 i j h heq ih =>
    rw [chremove_inner, if_pos h, if_pos heq]
    rw [int_incr_eq (by omega)] at ih ⊢
    have := ih (by omega)
    omega
  | case2 i j h hne ih =>
    rw [chremove_inner, if_pos h, if_neg hne]
    exact ih hi
  | case3 i j h =>
    rw [chremove_inner, if_neg h]
    omega

/-- What the inner loop leaves behind, in terms of the bytes `s.take (2^31)`
that the `int` index can reach: started at `s + i` with the cursor at
`cset + j`, it stops at the first byte that is copied, or where the test
`i < len` fails. -/
theorem chremove_inner_purge (s cset : List Nat) (i j : Nat) :
    purge cset ((s.take (2 ^ 31)).drop i) (cset.drop j) =
      if chremove_inner s cset i j < (s.take (2 ^ 31)).length then
        s.getD (chremove_inner s cset i j) 0 ::
          purge cset ((s.take (2 ^ 31)).drop (chremove_inner s cset i j + 1)) cset
      else [] := by
  have hlen : (s.take (2 ^ 31)).length = min (2 ^ 31) s.length := List.length_take _ _
  have hget : ∀ k, k < (s.take (2 ^ 31)).length → (s.take (2 ^ 31))[k]? = some (s.getD k 0) := by
    intro k hk
    rw [List.getElem?_take_of_lt (by omega), List.getD_eq_getElem?_getD,
      List.getElem?_eq_getElem (by omega)]
    rfl
  have hdrop : ∀ k, k < (s.take (2 ^ 31)).length →
      (s.take (2 ^ 31)).drop k = s.getD k 0 :: (s.take (2 ^ 31)).drop (k + 1) := by
    intro k hk
    rw [List.drop_eq_getElem_cons hk]
    have := hget k hk
    rw [List.getElem?_eq_getElem hk] at this
    rw [Option.some.inj this]
  induction i, j using chremove_inner.induct s cset with
  | case1 i j h heq ih =>
    have hj := getD_ne_zero_lt h.1
    have hi : i < (s.take (2 ^ 31)).length := by omega
    rw [chremove_inner, if_pos h, if_pos heq, ← ih, int_incr_eq (by omega)]
    rw [hdrop i hi, List.drop_eq_getElem_cons hj]
    rw [List.getD_eq_getElem (l := cset) _ hj] at heq
    have h0 : cset[j] ≠ 0 := by
      have := h.1
      rwa [List.getD_eq_getElem _ _ hj] at this
    generalize s.getD i 0 = x at heq ⊢
    simp [purge, inScan, h0, heq]
  | case2 i j h hne ih =>
    have hj := getD_ne_zero_lt h.1
    have hi : i < (s.take (2 ^ 31)).length := by omega
    rw [chremove_inner, if_pos h, if_neg hne, ← ih]
    rw [hdrop i hi]
    apply purge_cons_congr
    rw [List.drop_eq_getElem_cons hj]
    rw [List.getD_eq_getElem (l := cset) _ hj] at hne
    have h0 : cset[j] ≠ 0 := by
      have := h.1
      rwa [List.getD_eq_getElem _ _ hj] at this
    generalize s.getD i 0 = x at hne ⊢
    simp [inScan, h0, hne]
  | case3 i j h =>
    rw [chremove_inner, if_neg h]
    by_cases hi : i < (s.take (2 ^ 31)).length
    · have hz : cset.getD j 0 = 0 := by
        by_contra hc
        exact h ⟨hc, by omega, by omega⟩
      have hscan : inScan (s.getD i 0) (cset.drop j) = false := by
        by_cases hj : j < cset.length
        · rw [List.drop_eq_getElem_cons hj]
          rw [List.getD_eq_getElem _ _ hj] at hz
          simp [inScan, hz]
        · rw [List.drop_eq_nil_of_le (by omega)]
          rfl
      rw [if_pos hi, hdrop i hi]
      generalize s.getD i 0 = x at hscan ⊢
      simp [purge, hscan]
    · rw [if_neg hi, List.drop_eq_nil_of_le (by omega)]
      rfl

/-- The outer loop entered at a non-negative index `i` appends `purge` of the
unread bytes that the `int` index can reach. -/
theorem chremove_outer_purge (s cset : List Nat) (i : Nat) (dst : List Nat)
    (hi : i ≤ 2 ^ 31 + 1) :
    (chremove_outer s cset i dst).1 = dst ++ purge cset ((s.take (2 ^ 31)).drop i) cset := by
  have hlen : (s.take (2 ^ 31)).length = min (2 ^ 31) s.length := List.length_take _ _
  induction i, dst using chremove_outer.induct s cset with
  | case1 i dst hc h ih =>
    have hb := chremove_inner_bounds s cset i 0 (by omega)
    rw [chremove_outer, if_pos hc, if_pos h, int_incr_eq (by omega)]
    rw [int_incr_eq (by omega)] at ih
    rw [ih (by omega)]
    have := chremove_inner_purge s cset i 0
    rw [if_pos (by omega), List.drop_zero] at this
    rw [this]
    simp
  | case2 i dst hc h ih =>
    have hb := chremove_inner_bounds s cset i 0 (by omega)
    rw [chremove_outer, if_pos hc, if_neg h, int_incr_eq (by omega)]
    rw [int_incr_eq (by omega)] at ih
    rw [ih (by omega)]
    have := chremove_inner_purge s cset i 0
    rw [if_neg (by omega), List.drop_zero] at this
    rw [this, List.drop_eq_nil_of_le (by omega)]
    rfl
  | case3 i dst hc =>
    rw [chremove_outer, if_neg hc, List.drop_eq_nil_of_le (by omega)]
    simp [purge]

/-- The result of `sdschremove` for a non-NULL set, loop-free: the loops work
on the first `2^31` bytes of the subject. -/
theorem sdschremove_some (s c : List Nat) :
    sdschremove s (some c) =
      if s = [] ∨ strlen c = 0 then s else purge c (s.take (2 ^ 31)) c := by
  unfold sdschremove sdslen
  by_cases h : s.length = 0 ∨ strlen c = 0
  · have h2 : s = [] ∨ strlen c = 0 := h.imp List.length_eq_zero.mp id
    simp only [if_pos h, if_pos h2]
  · have h2 : ¬ (s = [] ∨ strlen c = 0) := fun hh => h (hh.imp List.length_eq_zero.mpr id)
    simp only [if_neg h, if_neg h2]
    rw [chremove_outer_purge s c 0 [] (by omega), List.drop_zero, List.nil_append]

/-- The result of `sdschremove` for a non-NULL set and a subject of at most
`2^31` bytes, loop-free. -/
theorem sdschremove_small (s c : List Nat) (hs : s.length ≤ 2 ^ 31) :
    sdschremove s (some c) = if s = [] ∨ strlen c = 0 then s else purge c s c := by
  rw [sdschremove_some, List.take_of_length_le hs]

/-! ## Auxiliary facts about the library primitives -/

theorem memcmp_append_self (needle rest : List Nat) : memcmp (needle ++ rest) needle = 0 := by
  induction needle with
  | nil => simp [memcmp]
  | cons a t ih => simp [memcmp, ih]

theorem memchr_append (pre : List Nat) (c : Nat) (rest : List Nat) (n : Nat)
    (hn : pre.length < n) :
    ∃ p1 p2, pre = p1 ++ p2 ∧ memchr (pre ++ c :: rest) c n = some p1.length ∧
      (p2 = [] ∨ ∃ p3, p2 = c :: p3) := by
  induction pre generalizing n with
  | nil =>
    refine ⟨[], [], rfl, ?_, Or.inl rfl⟩
    cases n with
    | zero => simp at hn
    | succ n => simp [memchr]
  | cons b t ih =>
    cases n with
    | zero => simp at hn
    | succ n =>
      by_cases hb : b = c
      · exact ⟨[], b :: t, rfl, by simp [memchr, hb], Or.inr ⟨t, by rw [hb]⟩⟩
      · obtain ⟨p1, p2, h1, h2, h3⟩ := ih n (by simpa using hn)
        refine ⟨b :: p1, p2, by rw [h1]; rfl, ?_, h3⟩
        simp [memchr, hb, h2]

theorem strlen_append_gt (pre : List Nat) (c : Nat) (rest : List Nat)
    (hpre : ∀ b ∈ pre, b ≠ 0) (hc : c ≠ 0) :
    pre.length < strlen (pre ++ c :: rest) := by
  induction pre with
  | nil => simp [strlen, hc]
  | cons b t ih =>
    have hb : b ≠ 0 := hpre b (by simp)
    have := ih (fun x hx => hpre x (by simp [hx]))
    rw [List.cons_append, strlen, if_neg hb, List.length_cons]
    omega

/-- The scan loop finds a needle that lies ahead of the candidate `ptr` when
every byte between the candidate and the needle is non-zero. -/
theorem sdssds_loop_found (chr : Nat) (tl rest : List Nat) :
    ∀ (k : Nat) (done gap : List Nat), gap.length ≤ k → (∀ b ∈ gap, b ≠ 0) →
      (gap = [] ∨ ∃ g, gap = chr :: g) →
      sdssds_loop (done ++ (gap ++ (chr :: tl ++ rest))) (chr :: tl) chr (some done.length)
        = 1 := by
  intro k
  induction k with
  | zero =>
    intro done gap hk _ _
    have hg : gap = [] := List.length_eq_zero.mp (by omega)
    subst hg
    rw [sdssds_loop]
    simp only [List.nil_append, List.drop_left, memcmp_append_self, if_true]
  | succ k ih =>
    intro done gap hk hz hgap
    rw [sdssds_loop]
    simp only [List.drop_left]
    rcases hgap with rfl | ⟨g, rfl⟩
    · simp only [List.nil_append, memcmp_append_self, if_true]
    · split
      · rfl
      · have hc : chr ≠ 0 := hz chr (by simp)
        have hg : ∀ b ∈ g, b ≠ 0 := fun x hx => hz x (by simp [hx])
        have hdrop : List.drop (done.length + 1)
            (done ++ (chr :: g ++ (chr :: tl ++ rest))) = g ++ chr :: (tl ++ rest) := by
          rw [show done.length + 1 = (done ++ [chr]).length by simp,
            show done ++ (chr :: g ++ (chr :: tl ++ rest))
              = (done ++ [chr]) ++ (g ++ chr :: (tl ++ rest)) by simp,
            List.drop_left]
        rw [hdrop]
        obtain ⟨p1, p2, h1, h2, h3⟩ := memchr_append g chr (tl ++ rest)
          (strlen (g ++ chr :: (tl ++ rest))) (strlen_append_gt g chr _ hg hc)
        rw [h2]
        have hlen : p2.length ≤ k := by
          have : g.length = p1.length + p2.length := by rw [h1, List.length_append]
          simp only [List.length_cons] at hk
          omega
        have hp2 : ∀ b ∈ p2, b ≠ 0 := fun x hx => hg x (by rw [h1]; simp [hx])
        have := ih (done ++ chr :: p1) p2 hlen hp2 h3
        rw [show (Option.map (· + (done.length + 1)) (some p1.length))
            = some (done ++ chr :: p1).length by simp; omega,
          show done ++ (chr :: g ++ (chr :: tl ++ rest))
            = (done ++ chr :: p1) ++ (p2 ++ (chr :: tl ++ rest)) by rw [h1]; simp]
        exact this


/-! ## The claims -/

/-- C1 (code evaluated at the failing input): for the subject "aa" and the
removal set "a", `sdschremove` returns "a", although deleting every member of
the set from "aa" leaves the empty string. -/
theorem sdschremove_keeps_set_member :
    sdschremove [97, 97] (some [97]) = [97] ∧
      [97, 97].filter (fun b => decide (b ∉ [97])) = [] := by
  refine ⟨?_, by decide⟩
  rw [sdschremove_small _ _ (by decide)]
  decide

/-- C2 (code evaluated at the failing input): for the subject "aa" and the
removal set "a", the first pass of `sdschremove` returns "a" and a second pass
over that result returns the empty string, so the second pass changes the
result of the first. -/
theorem sdschremove_second_pass_differs :
    sdschremove [97, 97] (some [97]) = [97] ∧
      sdschremove (sdschremove [97, 97] (some [97])) (some [97]) = [] := by
  have h : sdschremove [97, 97] (some [97]) = [97] := by
    rw [sdschremove_small _ _ (by decide)]
    decide
  refine ⟨h, ?_⟩
  rw [h, sdschremove_small _ _ (by decide)]
  decide

/-- C3 (code evaluated at the failing input): the needle "ab" occurs at offset
2 of the haystack "a\0ab" and is shorter than it, yet `sdssds` returns -1, not
a positive value: the candidate at offset 0 fails, and the `strlen` that bounds
the next `memchr` stops at the zero byte at offset 1, whatever lies behind the
haystack in memory. -/
theorem sdssds_misses_behind_zero (spare : List Nat) :
    0 < sdslen [97, 98] ∧ sdslen [97, 98] ≤ sdslen [97, 0, 97, 98] ∧
      [97, 98] <:+: [97, 0, 97, 98] ∧ sdssds [97, 0, 97, 98] [97, 98] spare = -1 := by
  refine ⟨by decide, by decide, ⟨[97, 0], [], rfl⟩, ?_⟩
  simp [sdssds, sdslen, sdsmem, sdssds_loop, memchr, memcmp, strlen]

/-- C4 (code evaluated at the failing input): the needle "b\0" does not occur
inside the three content bytes of the haystack "xab", yet `sdssds` returns 1:
the comparison at the candidate offset 2 matches the zero byte of the needle against
the terminator of the haystack. -/
theorem sdssds_matches_terminator (spare : List Nat) :
    0 < sdslen [98, 0] ∧ sdslen [98, 0] < sdslen [120, 97, 98] ∧
      ¬ [98, 0] <:+: [120, 97, 98] ∧ sdssds [120, 97, 98] [98, 0] spare = 1 := by
  refine ⟨by decide, by decide, by decide, ?_⟩
  simp [sdssds, sdslen, sdsmem, sdssds_loop, memchr, memcmp, strlen]

/-- C5: when the haystack is empty, or the needle is empty, or the haystack is
shorter than the needle, `sdssds` returns -1. -/
theorem sdssds_degenerate (haystack needle spare : List Nat)
    (h : sdslen haystack = 0 ∨ sdslen needle = 0 ∨ sdslen haystack < sdslen needle) :
    sdssds haystack needle spare = -1 := by
  unfold sdssds
  rw [if_pos h]

/-- C5 (witness): the needle "hello" is longer than the haystack "hi". -/
theorem sdssds_degenerate_witness :
    sdslen [104, 105] < sdslen [104, 101, 108, 108, 111] ∧
      sdssds [104, 105] [104, 101, 108, 108, 111] [] = -1 :=
  ⟨by decide, sdssds_degenerate [104, 105] [104, 101, 108, 108, 111] []
    (Or.inr (Or.inr (by decide)))⟩

/-- C6: for a haystack and a needle of the same non-zero length, `sdssds`
returns 0 when the two are byte-for-byte equal and -1 otherwise; the result is
never positive. -/
theorem sdssds_same_length (haystack needle spare : List Nat)
    (hlen : sdslen haystack = sdslen needle) (hpos : 0 < sdslen haystack) :
    sdssds haystack needle spare = (if haystack = needle then 0 else -1) ∧
      ¬ 0 < sdssds haystack needle spare := by
  have hg : ¬ (sdslen haystack = 0 ∨ sdslen needle = 0 ∨
      sdslen haystack < sdslen needle) := by omega
  have hval : sdssds haystack needle spare = (if haystack = needle then 0 else -1) := by
    unfold sdssds
    rw [if_neg hg, if_pos hlen]
    by_cases he : haystack = needle <;> simp [sdscmp, he]
  refine ⟨hval, ?_⟩
  rw [hval]
  split <;> decide

/-- C6 (witness): "hello" against "hellp", same length, one byte differs. -/
theorem sdssds_same_length_witness :
    sdslen [104, 101, 108, 108, 111] = sdslen [104, 101, 108, 108, 112] ∧
      0 < sdslen [104, 101, 108, 108, 111] ∧
      sdssds [104, 101, 108, 108, 111] [104, 101, 108, 108, 112] [] =
        (if [104, 101, 108, 108, 111] = [104, 101, 108, 108, 112] then 0 else -1) ∧
      ¬ 0 < sdssds [104, 101, 108, 108, 111] [104, 101, 108, 108, 112] [] :=
  ⟨by decide, by decide,
    sdssds_same_length [104, 101, 108, 108, 111] [104, 101, 108, 108, 112] []
      (by decide) (by decide)⟩

/-- C7 (counterexample): for the empty byte string, `sdssds(H, H)` is -1 and
not 0. -/
theorem sdssds_self_empty : sdssds [] [] [] = -1 ∧ sdssds [] [] [] ≠ 0 := by
  have h : sdssds [] [] [] = -1 := by simp [sdssds, sdslen]
  exact ⟨h, by rw [h]; decide⟩

/-- C7 (amended): `sdssds(H, H)` is 0 for every non-empty byte string `H` and
-1 for the empty one. -/
theorem sdssds_self (haystack spare : List Nat) :
    sdssds haystack haystack spare = if haystack = [] then -1 else 0 := by
  unfold sdssds sdslen
  by_cases h : haystack = []
  · subst h
    simp
  · have hl : haystack.length ≠ 0 := fun hh => h (List.length_eq_zero.mp hh)
    simp [sdscmp, h, hl]

/-- C8 (code evaluated at the failing input): for the haystack "xxxb" of
length 4 and the needle "b\0c", the comparison at the candidate offset 3 reads
the haystack at index 5, behind the terminator at index 4, whatever the memory
behind the terminator holds. -/
theorem sdssds_reads_past_end (spare : List Nat) :
    5 ∈ sdssds_reads [120, 120, 120, 98] [98, 0, 99] spare ∧
      sdslen [120, 120, 120, 98] < 5 := by
  refine ⟨?_, by decide⟩
  cases spare with
  | nil =>
    simp [sdssds_reads, sdslen, sdsmem, sdssds_loop_reads, memchr, memcmp, strlen,
      memchr_reads, memcmp_reads, strlen_reads]
  | cons a t =>
    by_cases h : a = 99 <;>
    simp [sdssds_reads, sdslen, sdsmem, sdssds_loop_reads, memchr, memcmp, strlen,
      memchr_reads, memcmp_reads, strlen_reads, h]

/-- C9: `sdschremove` returns the subject itself when the subject has length
0, when the set pointer is NULL, and when the set is the empty string. -/
theorem sdschremove_unchanged (s : List Nat) (cset : Option (List Nat))
    (h : sdslen s = 0 ∨ cset = none ∨ ∃ c, cset = some c ∧ strlen c = 0) :
    sdschremove s cset = s := by
  cases cset with
  | none => rfl
  | some c =>
    have hc : sdslen s = 0 ∨ strlen c = 0 := by
      rcases h with h | h | ⟨d, hd, h0⟩
      · exact Or.inl h
      · cases h
      · cases hd
        exact Or.inr h0
    simp only [sdschremove, if_pos hc]

/-- C9 (witness): the subject "abc" with the empty set. -/
theorem sdschremove_unchanged_witness :
    strlen [] = 0 ∧ sdschremove [97, 98, 99] (some []) = [97, 98, 99] :=
  ⟨by decide, sdschremove_unchanged [97, 98, 99] (some [])
    (Or.inr (Or.inr ⟨[], rfl, by decide⟩))⟩

/-- C10 (code evaluated at the failing input): the sets "ab" and "ba" hold the
same bytes, yet for the subject "ba" `sdschremove` returns "a" with the first
and the empty string with the second. -/
theorem sdschremove_depends_on_order :
    (∀ b, b ∈ [97, 98] ↔ b ∈ [98, 97]) ∧
      sdschremove [98, 97] (some [97, 98]) = [97] ∧
      sdschremove [98, 97] (some [98, 97]) = [] := by
  refine ⟨by intro b; simp [or_comm], ?_, ?_⟩
  · rw [sdschremove_small _ _ (by decide)]
    decide
  · rw [sdschremove_small _ _ (by decide)]
    decide

/-! ## Auxiliary facts about the membership scan -/

theorem inScan_mem (x : Nat) (l : List Nat) (h : inScan x l = true) : x ∈ l := by
  induction l with
  | nil => simp [inScan] at h
  | cons p ps ih =>
    rw [inScan] at h
    split at h
    · cases h
    · split at h
      · rename_i hx
        simp [hx]
      · exact List.mem_cons_of_mem _ (ih h)

theorem inScan_eq_decide (x : Nat) (l : List Nat) (hl : ∀ b ∈ l, b ≠ 0) :
    inScan x l = decide (x ∈ l) := by
  induction l with
  | nil => simp [inScan]
  | cons p ps ih =>
    have hp : p ≠ 0 := hl p (by simp)
    have := ih (fun b hb => hl b (by simp [hb]))
    by_cases hx : x = p
    · simp [inScan, hp, hx]
    · simp [inScan, hp, hx, this]

theorem strlen_eq_length (c : List Nat) (hc : ∀ b ∈ c, b ≠ 0) : strlen c = c.length := by
  induction c with
  | nil => rfl
  | cons b t ih =>
    have hb : b ≠ 0 := hc b (by simp)
    rw [strlen, if_neg hb, ih (fun x hx => hc x (by simp [hx])), List.length_cons]

/-- Whatever the place `ptr` in the set where the scan starts, the bytes kept
by the loops are a subsequence of the subject that holds every byte outside
the set. -/
theorem purge_sublist_filter (cset : List Nat) (src ptr : List Nat)
    (hptr : ∀ b ∈ ptr, b ∈ cset) :
    List.Sublist (purge cset src ptr) src ∧
      (purge cset src ptr).filter (fun b => decide (b ∉ cset))
        = src.filter (fun b => decide (b ∉ cset)) := by
  induction src generalizing ptr with
  | nil => simp [purge]
  | cons c src ih =>
    rw [purge]
    split
    · rename_i hscan
      have hc : c ∈ cset := hptr c (inScan_mem c ptr hscan)
      have := ih (cset.drop 1) (fun b hb => List.mem_of_mem_drop hb)
      refine ⟨List.Sublist.cons _ this.1, ?_⟩
      rw [this.2, List.filter_cons_of_neg (by simp [hc])]
    · have := ih cset (fun b hb => hb)
      refine ⟨List.Sublist.cons₂ _ this.1, ?_⟩
      by_cases hc : c ∈ cset
      · rw [List.filter_cons_of_neg (by simp [hc]), List.filter_cons_of_neg (by simp [hc])]
        exact this.2
      · rw [List.filter_cons_of_pos (by simp [hc]), List.filter_cons_of_pos (by simp [hc]),
          this.2]

/-- When the scan from `ptr` meets every member of the set, the loops delete
exactly the members of the set. -/
theorem purge_eq_filter (cset : List Nat) (hdrop : ∀ x, inScan x (cset.drop 1) = decide (x ∈ cset))
    (hfull : ∀ x, inScan x cset = decide (x ∈ cset)) (src ptr : List Nat)
    (hptr : ∀ x, inScan x ptr = decide (x ∈ cset)) :
    purge cset src ptr = src.filter (fun b => decide (b ∉ cset)) := by
  induction src generalizing ptr with
  | nil => simp [purge]
  | cons c src ih =>
    rw [purge, hptr c]
    by_cases hc : c ∈ cset
    · rw [if_pos (by simp [hc]), List.filter_cons_of_neg (by simp [hc])]
      exact ih (cset.drop 1) hdrop
    · rw [if_neg (by simp [hc]), List.filter_cons_of_pos (by simp [hc]), ih cset hfull]

/-! ## Auxiliary facts about the scan of sdssds -/

theorem memchr_lt (l : List Nat) (c n o : Nat) (h : memchr l c n = some o) : o < n := by
  induction l generalizing n o with
  | nil => cases n <;> simp [memchr] at h
  | cons b bs ih =>
    cases n with
    | zero => simp [memchr] at h
    | succ n =>
      rw [memchr] at h
      split at h
      · cases h
        omega
      · cases hm : memchr bs c n with
        | none => rw [hm] at h; cases h
        | some k =>
          rw [hm] at h
          cases h
          have := ih n k hm
          show k + 1 < n + 1
          omega

theorem strlen_append_zero_le (content rest : List Nat) :
    strlen (content ++ 0 :: rest) ≤ content.length := by
  induction content with
  | nil => simp [strlen]
  | cons b t ih =>
    rw [List.cons_append, strlen]
    split
    · omega
    · rw [List.length_cons]
      omega

/-- A comparison that ends equal inside an sds buffer, for a needle without
zero bytes, has matched content bytes only. -/
theorem memcmp_zero_free (content rest needle : List Nat) (hN : ∀ b ∈ needle, b ≠ 0)
    (h : memcmp (content ++ 0 :: rest) needle = 0) : needle <+: content := by
  induction needle generalizing content with
  | nil => exact List.nil_prefix
  | cons b bs ih =>
    have hb : b ≠ 0 := hN b (by simp)
    cases content with
    | nil =>
      rw [List.nil_append, memcmp] at h
      split at h
      · rename_i h0
        exact absurd h0.symm hb
      · split at h <;> cases h
    | cons a t =>
      rw [List.cons_append, memcmp] at h
      split at h
      · rename_i hab
        subst hab
        have := ih t (fun x hx => hN x (by simp [hx])) h
        exact (List.prefix_cons_inj a).mpr this
      · split at h <;> cases h

/-- The scan loop entered inside the content returns 1 or -1, and it returns 1
only when a needle without zero bytes occurs in the content. -/
theorem sdssds_loop_sound (haystack spare needle : List Nat) (chr : Nat)
    (hN : ∀ b ∈ needle, b ≠ 0) (ptr : Option Nat) :
    (∀ p, ptr = some p → p < haystack.length) →
      (sdssds_loop (sdsmem haystack spare) needle chr ptr = 1 ∨
        sdssds_loop (sdsmem haystack spare) needle chr ptr = -1) ∧
      (sdssds_loop (sdsmem haystack spare) needle chr ptr = 1 → needle <:+: haystack) := by
  induction ptr using sdssds_loop.induct (sdsmem haystack spare) needle chr with
  | case1 =>
    intro _
    rw [sdssds_loop]
    exact ⟨Or.inr rfl, fun h => by cases h⟩
  | case2 p hcmp =>
    intro hp
    have hlt := hp p rfl
    rw [sdssds_loop, if_pos hcmp]
    refine ⟨Or.inl rfl, fun _ => ?_⟩
    rw [sdsmem, List.drop_append_of_le_length (by omega)] at hcmp
    have := memcmp_zero_free _ _ _ hN hcmp
    exact this.isInfix.trans (List.drop_suffix p haystack).isInfix
  | case3 p hcmp ih =>
    intro hp
    have hlt := hp p rfl
    rw [sdssds_loop, if_neg hcmp]
    apply ih
    intro q hq
    cases hm : memchr (List.drop (p + 1) (sdsmem haystack spare)) chr
        (strlen (List.drop (p + 1) (sdsmem haystack spare))) with
    | none => rw [hm] at hq; cases hq
    | some o =>
      rw [hm] at hq
      cases hq
      have h1 := memchr_lt _ _ _ _ hm
      rw [sdsmem, List.drop_append_of_le_length (by omega)] at h1
      have h2 := strlen_append_zero_le (List.drop (p + 1) haystack) spare
      rw [List.length_drop] at h2
      show o + (p + 1) < haystack.length
      omega

/-- The scan finds a needle that lies behind a block of non-zero bytes in a
longer haystack. -/
theorem sdssds_found (pre : List Nat) (chr : Nat) (tl post spare : List Nat)
    (hz : ∀ b ∈ pre, b ≠ 0)
    (hlen : sdslen (chr :: tl) < sdslen (pre ++ chr :: tl ++ post)) :
    sdssds (pre ++ chr :: tl ++ post) (chr :: tl) spare = 1 := by
  unfold sdssds
  have hg : ¬ (sdslen (pre ++ chr :: tl ++ post) = 0 ∨ sdslen (chr :: tl) = 0 ∨
      sdslen (pre ++ chr :: tl ++ post) < sdslen (chr :: tl)) := by
    simp only [sdslen, List.length_append, List.length_cons] at hlen ⊢
    omega
  have he : ¬ sdslen (pre ++ chr :: tl ++ post) = sdslen (chr :: tl) := by omega
  rw [if_neg hg, if_neg he]
  have hmem : sdsmem (pre ++ chr :: tl ++ post) spare
      = pre ++ chr :: (tl ++ (post ++ 0 :: spare)) := by
    simp [sdsmem]
  obtain ⟨p1, p2, h1, h2, h3⟩ := memchr_append pre chr (tl ++ (post ++ 0 :: spare))
    (sdslen (pre ++ chr :: tl ++ post))
    (by simp only [sdslen, List.length_append, List.length_cons]; omega)
  have hp2 : ∀ b ∈ p2, b ≠ 0 := fun x hx => hz x (by rw [h1]; simp [hx])
  have := sdssds_loop_found chr tl (post ++ 0 :: spare) p2.length p1 p2 (Nat.le_refl _)
    hp2 h3
  rw [hmem, List.getD_cons_zero, h2]
  rw [show pre ++ chr :: (tl ++ (post ++ 0 :: spare))
      = p1 ++ (p2 ++ (chr :: tl ++ (post ++ 0 :: spare))) by rw [h1]; simp]
  exact this

/-! ## The set buffers of sdscasechremove -/

theorem strlen_le_length (c : List Nat) : strlen c ≤ c.length := by
  induction c with
  | nil => simp [strlen]
  | cons b t ih =>
    rw [strlen]
    split
    · omega
    · rw [List.length_cons]
      omega

theorem strlen_append_zero (l r : List Nat) : strlen (l ++ 0 :: r) = strlen l := by
  induction l with
  | nil => simp [strlen]
  | cons b t ih =>
    rw [List.cons_append, strlen, strlen, ih]

theorem inScan_append_zero (x : Nat) (l r : List Nat) :
    inScan x (l ++ 0 :: r) = inScan x l := by
  induction l with
  | nil => simp [inScan]
  | cons b t ih =>
    rw [List.cons_append, inScan, inScan, ih]

theorem purge_append_zero (c r : List Nat) (hc : c ≠ []) (src p : List Nat) :
    purge (c ++ 0 :: r) src (p ++ 0 :: r) = purge c src p := by
  have hdrop : (c ++ 0 :: r).drop 1 = c.drop 1 ++ 0 :: r := by
    cases c with
    | nil => exact absurd rfl hc
    | cons a t => simp
  induction src generalizing p with
  | nil => simp [purge]
  | cons x src ih =>
    rw [purge, purge, inScan_append_zero, hdrop, ih (c.drop 1), ih c]

/-- The set buffer is read up to its first zero byte only. -/
theorem sdschremove_append_zero (s c r : List Nat) :
    sdschremove s (some (c ++ 0 :: r)) = sdschremove s (some c) := by
  rw [sdschremove_some, sdschremove_some, strlen_append_zero]
  by_cases h : s = [] ∨ strlen c = 0
  · rw [if_pos h, if_pos h]
  · rw [if_neg h, if_neg h]
    have hc : c ≠ [] := by
      intro hnil
      apply h
      right
      rw [hnil]
      rfl
    exact purge_append_zero c r hc _ c

theorem casefold_loop_length (fold : Nat → Nat) (cset : List Nat) (len i : Nat)
    (buf : List Nat) : (casefold_loop fold cset len i buf).length = buf.length := by
  induction i, buf using casefold_loop.induct fold cset len with
  | case1 i buf h ih => rw [casefold_loop, if_pos h, ih, List.length_set]
  | case2 i buf h => rw [casefold_loop, if_neg h]

/-- The bytes of the buffer behind the fold loop entered at index `i`: the
loop writes the indices from `i` on that lie below `len` and below `2^31`. -/
theorem casefold_loop_getElem (fold : Nat → Nat) (cset : List Nat) (len i : Nat)
    (buf : List Nat) (hbuf : len < buf.length) (k : Nat) :
    (casefold_loop fold cset len i buf)[k]? =
      if i ≤ k ∧ k < len ∧ k < 2 ^ 31 then some (fold (cset.getD k 0)) else buf[k]? := by
  induction i, buf using casefold_loop.induct fold cset len with
  | case1 i buf h ih =>
    rw [casefold_loop, if_pos h, ih (by rw [List.length_set]; exact hbuf), List.getElem?_set,
      int_incr_eq (by omega)]
    by_cases hik : i = k
    · subst hik
      rw [if_neg (by omega), if_pos rfl, if_pos (by omega), if_pos ⟨Nat.le_refl _, h.2, h.1⟩]
    · rw [if_neg hik]
      by_cases hk : i + 1 ≤ k ∧ k < len ∧ k < 2 ^ 31
      · rw [if_pos hk, if_pos ⟨by omega, hk.2⟩]
      · rw [if_neg hk, if_neg (by omega)]
  | case2 i buf h =>
    rw [casefold_loop, if_neg h, if_neg (by omega)]

/-- The buffer `ignorecase` behind a fold loop and the store of the
terminator: the set bytes that the `int` index reaches, folded, then what the
block held, with the zero byte at index `len`. -/
theorem casefold_buffer (fold : Nat → Nat) (cset : List Nat) (len : Nat) (buf : List Nat)
    (hlen : len ≤ cset.length) (hbuf : buf.length = len + 1) :
    (casefold_loop fold cset len 0 buf).set len 0 =
      (cset.take (min len (2 ^ 31))).map fold ++
        (buf.drop (min len (2 ^ 31))).set (len - min len (2 ^ 31)) 0 := by
  have hmap : ((cset.take (min len (2 ^ 31))).map fold).length = min len (2 ^ 31) := by
    rw [List.length_map, List.length_take]
    omega
  apply List.ext_getElem?
  intro k
  rw [List.getElem?_set, casefold_loop_length, casefold_loop_getElem fold cset len 0 buf
    (by omega)]
  by_cases hlt : k < min len (2 ^ 31)
  · rw [if_neg (by omega), if_pos ⟨Nat.zero_le _, by omega, by omega⟩,
      List.getElem?_append_left (by omega), List.getElem?_map,
      List.getElem?_take_of_lt hlt, List.getElem?_eq_getElem (by omega),
      List.getD_eq_getElem _ _ (by omega)]
    rfl
  · rw [List.getElem?_append_right (by omega), hmap, List.getElem?_set, List.length_drop,
      List.getElem?_drop]
    by_cases hk : len = k
    · subst hk
      rw [if_pos rfl, if_pos (by omega), if_pos rfl, if_pos (by omega)]
    · rw [if_neg hk, if_neg (by omega), if_neg (by omega)]
      congr 1
      omega

/-- The function `sdscasechremove` without its buffer loops, for every block
from `malloc`: both set buffers hold the folded set bytes that the `int` index
reaches, followed by what the block held behind them, with the terminator at
index `len`. -/
theorem sdscasechremove_buf_loopfree (s cset block : List Nat)
    (hblock : block.length = strlen cset + 1) :
    sdscasechremove_buf s cset block =
      sdschremove
        (sdschremove s (some ((cset.take (min (strlen cset) (2 ^ 31))).map tolower ++
          (block.drop (min (strlen cset) (2 ^ 31))).set
            (strlen cset - min (strlen cset) (2 ^ 31)) 0)))
        (some ((cset.take (min (strlen cset) (2 ^ 31))).map toupper ++
          (block.drop (min (strlen cset) (2 ^ 31))).set
            (strlen cset - min (strlen cset) (2 ^ 31)) 0)) := by
  have hle := strlen_le_length cset
  have h1 := casefold_buffer tolower cset (strlen cset) block hle hblock
  have hlen1 : ((cset.take (min (strlen cset) (2 ^ 31))).map tolower).length
      = min (strlen cset) (2 ^ 31) := by
    rw [List.length_map, List.length_take]
    omega
  have h2 := casefold_buffer toupper cset (strlen cset)
    ((cset.take (min (strlen cset) (2 ^ 31))).map tolower ++
      (block.drop (min (strlen cset) (2 ^ 31))).set
        (strlen cset - min (strlen cset) (2 ^ 31)) 0) hle
    (by
      rw [List.length_append, hlen1, List.length_set, List.length_drop]
      omega)
  rw [List.drop_left' hlen1] at h2
  have hset : ∀ (l : List Nat) (n : Nat), (l.set n 0).set n 0 = l.set n 0 := by
    intro l n
    apply List.ext_getElem?
    intro k
    simp only [List.getElem?_set, List.length_set]
    split <;> rfl
  rw [hset] at h2
  simp only [sdscasechremove_buf, h1, h2]

/-- For a set of at most `2^31` bytes the block from `malloc` does not matter:
`sdscasechremove` is two passes of `sdschremove`, with the set folded by
`tolower` and by `toupper`. -/
theorem sdscasechremove_buf_eq (s cset block : List Nat)
    (hblock : block.length = strlen cset + 1) (hlen : strlen cset ≤ 2 ^ 31) :
    sdscasechremove_buf s cset block =
      sdschremove (sdschremove s (some ((cset.take (strlen cset)).map tolower)))
        (some ((cset.take (strlen cset)).map toupper)) := by
  rw [sdscasechremove_buf_loopfree s cset block hblock, Nat.min_eq_left hlen, Nat.sub_self]
  have htail : ∃ x, block.drop (strlen cset) = [x] := by
    have hl : (block.drop (strlen cset)).length = 1 := by
      rw [List.length_drop]
      omega
    match hb : block.drop (strlen cset), hl with
    | [x], _ => exact ⟨x, rfl⟩
  obtain ⟨x, hx⟩ := htail
  rw [hx, List.set_cons_zero, sdschremove_append_zero, sdschremove_append_zero]

theorem sdscasechremove_eq (s cset : List Nat) (hlen : strlen cset ≤ 2 ^ 31) :
    sdscasechremove s cset =
      sdschremove (sdschremove s (some ((cset.take (strlen cset)).map tolower)))
        (some ((cset.take (strlen cset)).map toupper)) := by
  rw [sdscasechremove, sdscasechremove_buf_eq s cset _ (by simp) hlen]

/-! ## Auxiliary facts about the loop machine -/

theorem chremove_run_add (s cset : List Nat) (n m : Nat) (st : LoopState) :
    chremove_run s cset (n + m) st = chremove_run s cset m (chremove_run s cset n st) := by
  induction n generalizing st with
  | zero => rw [Nat.zero_add]; rfl
  | succ n ih => rw [Nat.succ_add, chremove_run, chremove_run, ih]

/-- The machine started at the inner test leaves the inner loop at the index
computed by `chremove_inner`, with the byte there copied when it lies inside
the subject, and with the increment of the outer header done. -/
theorem chremove_run_inner (s cset : List Nat) (dst : List Nat) (i j : Nat) :
    ∃ n k, chremove_run s cset n (LoopState.mk LoopPc.inner i j dst) =
      LoopState.mk LoopPc.outer (int_incr (chremove_inner s cset i j)) k
        (if int_lt_size (chremove_inner s cset i j) s.length then
          dst ++ [s.getD (chremove_inner s cset i j) 0] else dst) := by
  induction i, j using chremove_inner.induct s cset with
  | case1 i j h heq ih =>
    obtain ⟨n, k, hn⟩ := ih
    refine ⟨n + 1, k, ?_⟩
    rw [chremove_run, chremove_inner, if_pos h, if_pos heq]
    simp only [chremove_step, if_pos h, if_pos heq]
    exact hn
  | case2 i j h hne ih =>
    obtain ⟨n, k, hn⟩ := ih
    refine ⟨n + 1, k, ?_⟩
    rw [chremove_run, chremove_inner, if_pos h, if_neg hne]
    simp only [chremove_step, if_pos h, if_neg hne]
    exact hn
  | case3 i j h =>
    refine ⟨1, j, ?_⟩
    rw [chremove_run, chremove_run, chremove_inner, if_neg h]
    simp only [chremove_step, if_neg h]
    split <;> rfl

/-- The machine started at the outer test reaches the code behind the loops,
with the bytes and the index computed by `chremove_outer`. -/
theorem chremove_run_outer (s cset : List Nat) (i : Nat) (dst : List Nat) :
    ∀ j, ∃ n k, chremove_run s cset n (LoopState.mk LoopPc.outer i j dst) =
      LoopState.mk LoopPc.finished (chremove_outer s cset i dst).2 k
        (chremove_outer s cset i dst).1 := by
  induction i, dst using chremove_outer.induct s cset with
  | case1 i dst hi h ih =>
    intro j
    obtain ⟨n1, k1, h1⟩ := chremove_run_inner s cset dst i 0
    rw [if_pos h] at h1
    obtain ⟨n2, k2, h2⟩ := ih k1
    refine ⟨(n1 + n2) + 1, k2, ?_⟩
    rw [chremove_run, chremove_outer, if_pos hi, if_pos h]
    simp only [chremove_step, if_pos hi]
    rw [chremove_run_add, h1, h2]
  | case2 i dst hi h ih =>
    intro j
    obtain ⟨n1, k1, h1⟩ := chremove_run_inner s cset dst i 0
    rw [if_neg h] at h1
    obtain ⟨n2, k2, h2⟩ := ih k1
    refine ⟨(n1 + n2) + 1, k2, ?_⟩
    rw [chremove_run, chremove_outer, if_pos hi, if_neg h]
    simp only [chremove_step, if_pos hi]
    rw [chremove_run_add, h1, h2]
  | case3 i dst hi =>
    intro j
    refine ⟨1, j, ?_⟩
    rw [chremove_run, chremove_run, chremove_outer, if_neg hi]
    simp only [chremove_step, if_neg hi]

/-- Bounds on the subject index that every step keeps: at most `len + 1` and
`2^31 + 1` everywhere (so the 32-bit pattern never comes back to 0), at most
`len` and `2^31` at the test of the inner loop. -/
theorem chremove_step_bound (s cset : List Nat) (st : LoopState)
    (h : (st.i ≤ s.length + 1 ∧ st.i ≤ 2 ^ 31 + 1) ∧
      (st.pc = LoopPc.inner → st.i ≤ s.length ∧ st.i ≤ 2 ^ 31)) :
    ((chremove_step s cset st).i ≤ s.length + 1 ∧ (chremove_step s cset st).i ≤ 2 ^ 31 + 1) ∧
      ((chremove_step s cset st).pc = LoopPc.inner →
        (chremove_step s cset st).i ≤ s.length ∧ (chremove_step s cset st).i ≤ 2 ^ 31) := by
  obtain ⟨pc, i, j, dst⟩ := st
  cases pc with
  | outer =>
    simp only [chremove_step]
    split
    · rename_i hc
      exact ⟨h.1, fun _ => ⟨by simp only; omega, by simp only; omega⟩⟩
    · exact ⟨h.1, fun hpc => by cases hpc⟩
  | inner =>
    have hi : i ≤ s.length ∧ i ≤ 2 ^ 31 := h.2 rfl
    have hinc : int_incr i = i + 1 := int_incr_eq (by omega)
    simp only [chremove_step]
    split
    · rename_i hc
      split
      · exact ⟨by simp only; omega, fun _ => by simp only; omega⟩
      · exact ⟨by simp only; omega, fun _ => hi⟩
    · split
      · exact ⟨by simp only; omega, fun hpc => by cases hpc⟩
      · exact ⟨by simp only; omega, fun hpc => by cases hpc⟩
  | finished =>
    simp only [chremove_step]
    exact h

theorem chremove_run_bound (s cset : List Nat) (n : Nat) (st : LoopState)
    (h : (st.i ≤ s.length + 1 ∧ st.i ≤ 2 ^ 31 + 1) ∧
      (st.pc = LoopPc.inner → st.i ≤ s.length ∧ st.i ≤ 2 ^ 31)) :
    (chremove_run s cset n st).i ≤ s.length + 1 ∧
      (chremove_run s cset n st).i ≤ 2 ^ 31 + 1 := by
  induction n generalizing st with
  | zero => exact h.1
  | succ n ih =>
    rw [chremove_run]
    exact ih _ (chremove_step_bound s cset st h)

/-! ## Subjects and sets beyond the range of the int index -/

theorem inScan_replicate_append (x a : Nat) (n : Nat) (tl : List Nat) (ha : a ≠ 0)
    (hx : x ≠ a) : inScan x (List.replicate n a ++ tl) = inScan x tl := by
  induction n with
  | zero => rfl
  | succ n ih =>
    rw [List.replicate_succ, List.cons_append, inScan, if_neg ha, if_neg hx, ih]

theorem purge_replicate (c : List Nat) (x n : Nat) (hc : inScan x c = false)
    (ptr : List Nat) (hptr : inScan x ptr = false) :
    purge c (List.replicate n x) ptr = List.replicate n x := by
  induction n generalizing ptr with
  | zero => rfl
  | succ n ih =>
    rw [List.replicate_succ, purge, hptr, ih c hc]
    rfl

theorem inScan_true_strlen (x : Nat) (c : List Nat) (h : inScan x c = true) :
    strlen c ≠ 0 := by
  cases c with
  | nil => simp [inScan] at h
  | cons p ps =>
    rw [inScan] at h
    rw [strlen]
    split
    · rename_i hp
      rw [if_pos hp] at h
      cases h
    · omega

theorem sdschremove_single_keep (x : Nat) (c : List Nat) (h : inScan x c = false) :
    sdschremove [x] (some c) = [x] := by
  rw [sdschremove_small _ _ (by simp)]
  split
  · rfl
  · rw [purge, h]
    rfl

theorem sdschremove_single_drop (x : Nat) (c : List Nat) (h : inScan x c = true) :
    sdschremove [x] (some c) = [] := by
  rw [sdschremove_small _ _ (by simp), if_neg (by simp [inScan_true_strlen x c h]), purge, h]
  rfl

/-- A subject of `2^31 + 1` equal bytes that the set does not hold: the loops
copy the first `2^31` bytes and stop when the `int` index passes `INT_MAX`. -/
theorem sdschremove_replicate_wrap (x : Nat) (c : List Nat) (hc : inScan x c = false)
    (hlen : strlen c ≠ 0) :
    sdschremove (List.replicate (2 ^ 31 + 1) x) (some c) = List.replicate (2 ^ 31) x := by
  have hne : ¬ (List.replicate (2 ^ 31 + 1) x = [] ∨ strlen c = 0) := by
    rw [List.replicate_succ]
    intro h
    rcases h with h | h
    · cases h
    · exact hlen h
  rw [sdschremove_some, if_neg hne, List.take_replicate, Nat.min_eq_left (by omega)]
  exact purge_replicate c x _ hc c hc

/-! ## The claims on the case-insensitive functions and on the loops -/

/-- C11 (code evaluated at the failing input): for the subject "aa" and the
removal set "a", a set of ASCII letters, `sdscasechremove` returns "a", a byte
that is the lowercase form of a member of the set. -/
theorem sdscasechremove_keeps_letter :
    sdscasechremove [97, 97] [97] = [97] ∧
      tolower 97 ∈ sdscasechremove [97, 97] [97] := by
  have hl : (List.take (strlen [97]) [97]).map tolower = [97] := by decide
  have hu : (List.take (strlen [97]) [97]).map toupper = [65] := by decide
  have h1 : sdschremove [97, 97] (some [97]) = [97] := by
    rw [sdschremove_small _ _ (by decide)]
    decide
  have h2 : sdschremove [97] (some [65]) = [97] := by
    rw [sdschremove_small _ _ (by decide)]
    decide
  have h : sdscasechremove [97, 97] [97] = [97] := by
    rw [sdscasechremove_eq _ _ (by decide), hl, hu, h1, h2]
  exact ⟨h, by rw [h]; decide⟩

/-- C12 (code evaluated at the failing input): for the subject "banana" and
the removal set "an", `sdschremove` returns "baa", which is not "bb" and still
holds the set member `a`. -/
theorem sdschremove_banana_not_bb :
    sdschremove [98, 97, 110, 97, 110, 97] (some [97, 110]) = [98, 97, 97] ∧
      sdschremove [98, 97, 110, 97, 110, 97] (some [97, 110]) ≠ [98, 98] := by
  have h : sdschremove [98, 97, 110, 97, 110, 97] (some [97, 110]) = [98, 97, 97] := by
    rw [sdschremove_small _ _ (by decide)]
    decide
  exact ⟨h, by rw [h]; decide⟩

/-- C13 (counterexample): for the subject "BaNaNa" and the removal set "an",
`sdscasechremove` does not return "BN". -/
theorem sdscasechremove_not_BN :
    sdscasechremove [66, 97, 78, 97, 78, 97] [97, 110] ≠ [66, 78] := by
  have hl : (List.take (strlen [97, 110]) [97, 110]).map tolower = [97, 110] := by decide
  have hu : (List.take (strlen [97, 110]) [97, 110]).map toupper = [65, 78] := by decide
  have h1 : sdschremove [66, 97, 78, 97, 78, 97] (some [97, 110]) = [66, 78, 78] := by
    rw [sdschremove_small _ _ (by decide)]
    decide
  have h2 : sdschremove [66, 78, 78] (some [65, 78]) = [66] := by
    rw [sdschremove_small _ _ (by decide)]
    decide
  rw [sdscasechremove_eq _ _ (by decide), hl, hu, h1, h2]
  decide

/-- C13 (amended): for the subject "BaNaNa" and the removal set "an",
`sdscasechremove` returns "B": the lowercase pass leaves "BNN" and the
uppercase pass removes both `N`. -/
theorem sdscasechremove_BaNaNa :
    sdschremove [66, 97, 78, 97, 78, 97] (some [97, 110]) = [66, 78, 78] ∧
      sdscasechremove [66, 97, 78, 97, 78, 97] [97, 110] = [66] := by
  have hl : (List.take (strlen [97, 110]) [97, 110]).map tolower = [97, 110] := by decide
  have hu : (List.take (strlen [97, 110]) [97, 110]).map toupper = [65, 78] := by decide
  have h1 : sdschremove [66, 97, 78, 97, 78, 97] (some [97, 110]) = [66, 78, 78] := by
    rw [sdschremove_small _ _ (by decide)]
    decide
  have h2 : sdschremove [66, 78, 78] (some [65, 78]) = [66] := by
    rw [sdschremove_small _ _ (by decide)]
    decide
  exact ⟨h1, by rw [sdscasechremove_eq _ _ (by decide), hl, hu, h1, h2]⟩

/-- C14 (code evaluated at the failing input): for the ASCII-only haystack
"XXXB" and needle "B\0C", the result of `sdscasesds` is not fixed by the
lowercase forms "xxxb" and "b\0c": it is -1 when no byte `c` lies behind the
terminator of the lowercase copy and 1 when one does, and `sdssds` on lowercase
buffers with a `c` behind the terminator returns 1. -/
theorem sdscasesds_depends_on_memory :
    (∀ b ∈ [88, 88, 88, 66], b < 128) ∧ (∀ b ∈ [66, 0, 67], b < 128) ∧
      lowercase [88, 88, 88, 66] = [120, 120, 120, 98] ∧
      lowercase [66, 0, 67] = [98, 0, 99] ∧
      sdscasesds [88, 88, 88, 66] [66, 0, 67] [] = -1 ∧
      sdscasesds [88, 88, 88, 66] [66, 0, 67] [99] = 1 ∧
      sdssds (lowercase [88, 88, 88, 66]) (lowercase [66, 0, 67]) [99] = 1 := by
  refine ⟨by decide, by decide, by decide, by decide, ?_, ?_, ?_⟩
  · simp [sdscasesds, sdsdup, sdstolower, tolower, sdssds, sdslen, sdsmem, sdssds_loop,
      memchr, memcmp, strlen]
  · simp [sdscasesds, sdsdup, sdstolower, tolower, sdssds, sdslen, sdsmem, sdssds_loop,
      memchr, memcmp, strlen]
  · simp [lowercase, tolower, sdssds, sdslen, sdsmem, sdssds_loop, memchr, memcmp, strlen]

/-- Below the range of the `int` index: for a set buffer of at most `2^31`
non-zero bytes, `sdscasechremove(s, cset)` is `sdschremove` with the set folded
by `tolower`, followed by `sdschremove` of that result with the set folded by
`toupper`, for every block that `malloc` returns. -/
theorem sdscasechremove_two_passes (s cset block : List Nat) (hc : ∀ b ∈ cset, b ≠ 0)
    (hlen : cset.length ≤ 2 ^ 31) (hblock : block.length = cset.length + 1) :
    sdscasechremove_buf s cset block =
      sdschremove (sdschremove s (some (cset.map tolower))) (some (cset.map toupper)) := by
  have hs := strlen_eq_length cset hc
  rw [sdscasechremove_buf_eq s cset block (by rw [hs]; exact hblock) (by rw [hs]; exact hlen),
    hs, List.take_length]

/-- A set of `2^31` bytes `a` followed by one `b`, subject "b": the fold loops
stop when the `int` index passes `INT_MAX` and leave the byte `g` of the block
at index `2^31` unwritten; unless `g` is a `b`, the subject is returned
unchanged, whatever else the block from `malloc` held. -/
theorem sdscasechremove_buf_long_set (pre : List Nat) (g x : Nat)
    (hpre : pre.length = 2 ^ 31) (hg : g ≠ 98) :
    sdscasechremove_buf [98] (List.replicate (2 ^ 31) 97 ++ [98]) (pre ++ [g, x]) = [98] := by
  have hz : ∀ b ∈ List.replicate (2 ^ 31) 97 ++ [98], b ≠ 0 := by
    intro b hb
    rcases List.mem_append.mp hb with h | h
    · rw [List.eq_of_mem_replicate h]
      decide
    · rw [List.mem_singleton.mp h]
      decide
  have hstr : strlen (List.replicate (2 ^ 31) 97 ++ [98]) = 2 ^ 31 + 1 := by
    rw [strlen_eq_length _ hz, List.length_append, List.length_replicate]
    rfl
  have hscan : ∀ a, a ≠ 0 → 98 ≠ a →
      inScan 98 (List.replicate (2 ^ 31) a ++ [g, 0]) = false := by
    intro a ha hne
    rw [inScan_replicate_append 98 a _ _ ha hne, inScan]
    split
    · rfl
    · rw [if_neg (fun h => hg h.symm)]
      rfl
  rw [sdscasechremove_buf_loopfree _ _ _ (by
      rw [hstr, List.length_append, hpre]
      rfl),
    hstr, Nat.min_eq_right (by omega), List.take_left' (List.length_replicate _ _),
    List.drop_left' hpre, show 2 ^ 31 + 1 - 2 ^ 31 = 1 by omega,
    List.map_replicate, List.map_replicate,
    show [g, x].set 1 0 = [g, 0] from rfl,
    show tolower 97 = 97 from rfl, show toupper 97 = 65 from rfl,
    sdschremove_single_keep 98 _ (hscan 97 (by decide) (by decide)),
    sdschremove_single_keep 98 _ (hscan 65 (by decide) (by decide))]

/-- C15 (code evaluated at the failing input): for the subject "b" and the set
of `2^31` bytes `a` followed by one `b`, the fold loops stop when the `int`
index passes `INT_MAX`, so the `b` of the set never reaches `ignorecase`:
`sdscasechremove` returns "b", while the two passes of `sdschremove` with the
whole set folded by `tolower` and by `toupper` return the empty string. -/
theorem sdscasechremove_long_set :
    sdscasechremove [98] (List.replicate (2 ^ 31) 97 ++ [98]) = [98] ∧
      sdschremove
          (sdschremove [98] (some ((List.replicate (2 ^ 31) 97 ++ [98]).map tolower)))
          (some ((List.replicate (2 ^ 31) 97 ++ [98]).map toupper)) = [] := by
  have hz : ∀ b ∈ List.replicate (2 ^ 31) 97 ++ [98], b ≠ 0 := by
    intro b hb
    rcases List.mem_append.mp hb with h | h
    · rw [List.eq_of_mem_replicate h]
      decide
    · rw [List.mem_singleton.mp h]
      decide
  have hstr : strlen (List.replicate (2 ^ 31) 97 ++ [98]) = 2 ^ 31 + 1 := by
    rw [strlen_eq_length _ hz, List.length_append, List.length_replicate]
    rfl
  constructor
  · have := sdscasechremove_buf_long_set (List.replicate (2 ^ 31) 0) 0 0
      (List.length_replicate _ _) (by decide)
    rw [sdscasechremove, hstr]
    rw [show List.replicate (2 ^ 31 + 1 + 1) 0 = List.replicate (2 ^ 31) 0 ++ [0, 0] by
      rw [List.replicate_succ', List.replicate_succ', List.append_assoc]
      rfl]
    exact this
  · have hin : inScan 98 (List.replicate (2 ^ 31) 97 ++ [98]) = true := by
      rw [inScan_replicate_append 98 97 _ _ (by decide) (by decide)]
      rfl
    rw [List.map_append, List.map_replicate, show tolower 97 = 97 from rfl,
      show [98].map tolower = [98] from rfl, sdschremove_single_drop 98 _ hin,
      sdschremove_some, if_pos (Or.inl rfl)]

/-- Below the range of the `int` index: for a subject of at most `2^31`
bytes, the result of `sdschremove(s, cset)` is a subsequence of `s`, and
deleting the members of the set from the result gives the same string as
deleting them from `s` (`cset.getD []` lists the bytes of the set, none for a
NULL pointer). -/
theorem sdschremove_keeps_outside_bytes (s : List Nat) (cset : Option (List Nat))
    (hs : s.length ≤ 2 ^ 31) :
    List.Sublist (sdschremove s cset) s ∧
      (sdschremove s cset).filter (fun b => decide (b ∉ cset.getD []))
        = s.filter (fun b => decide (b ∉ cset.getD [])) := by
  cases cset with
  | none => exact ⟨List.Sublist.refl _, rfl⟩
  | some c =>
    rw [sdschremove_small s c hs]
    split
    · exact ⟨List.Sublist.refl _, rfl⟩
    · exact purge_sublist_filter c s c (fun b hb => hb)

/-- C16 (code evaluated at the failing input): for a subject of `2^31 + 1`
bytes `x` and the set "a", `sdschremove` returns `2^31` bytes `x`: the last
byte, which is outside the set, is lost when the `int` index passes
`INT_MAX`. -/
theorem sdschremove_loses_byte :
    120 ∉ [97] ∧
      sdschremove (List.replicate (2 ^ 31 + 1) 120) (some [97]) = List.replicate (2 ^ 31) 120 ∧
      (sdschremove (List.replicate (2 ^ 31 + 1) 120) (some [97])).length
        < (List.replicate (2 ^ 31 + 1) 120).length := by
  have h := sdschremove_replicate_wrap 120 [97] (by decide) (by decide)
  refine ⟨by decide, h, ?_⟩
  rw [h, List.length_replicate, List.length_replicate]
  omega

/-- C17: for a haystack and a needle without zero bytes and with
`0 < len(needle) < len(haystack)`, `sdssds` returns 1 exactly when the needle
occurs as a contiguous block in the haystack, and -1 when it does not,
whatever lies behind the haystack in memory. -/
theorem sdssds_zero_free (haystack needle spare : List Nat)
    (hH : ∀ b ∈ haystack, b ≠ 0) (hN : ∀ b ∈ needle, b ≠ 0)
    (hpos : 0 < sdslen needle) (hlt : sdslen needle < sdslen haystack) :
    (sdssds haystack needle spare = 1 ↔ needle <:+: haystack) ∧
      (¬ needle <:+: haystack → sdssds haystack needle spare = -1) := by
  have hg : ¬ (sdslen haystack = 0 ∨ sdslen needle = 0 ∨
      sdslen haystack < sdslen needle) := by omega
  have he : ¬ sdslen haystack = sdslen needle := by omega
  have hloop : sdssds haystack needle spare =
      sdssds_loop (sdsmem haystack spare) needle (needle.getD 0 0)
        (memchr (sdsmem haystack spare) (needle.getD 0 0) (sdslen haystack)) := by
    unfold sdssds
    rw [if_neg hg, if_neg he]
  have hsound := sdssds_loop_sound haystack spare needle (needle.getD 0 0) hN
    (memchr (sdsmem haystack spare) (needle.getD 0 0) (sdslen haystack))
    (fun p hp => memchr_lt _ _ _ _ hp)
  rw [← hloop] at hsound
  have hfound : needle <:+: haystack → sdssds haystack needle spare = 1 := by
    rintro ⟨pre, post, rfl⟩
    cases needle with
    | nil => simp [sdslen] at hpos
    | cons chr tl =>
      exact sdssds_found pre chr tl post spare
        (fun b hb => hH b (by simp [hb])) hlt
  refine ⟨⟨hsound.2, hfound⟩, fun hno => ?_⟩
  rcases hsound.1 with h1 | h1
  · exact absurd (hsound.2 h1) hno
  · exact h1

/-- C17 (witness): "world" occurs in "hello world". -/
theorem sdssds_zero_free_witness :
    (∀ b ∈ [104, 101, 108, 108, 111, 32, 119, 111, 114, 108, 100], b ≠ 0) ∧
      (∀ b ∈ [119, 111, 114, 108, 100], b ≠ 0) ∧
      0 < sdslen [119, 111, 114, 108, 100] ∧
      sdslen [119, 111, 114, 108, 100]
        < sdslen [104, 101, 108, 108, 111, 32, 119, 111, 114, 108, 100] ∧
      ((sdssds [104, 101, 108, 108, 111, 32, 119, 111, 114, 108, 100]
            [119, 111, 114, 108, 100] [] = 1 ↔
          [119, 111, 114, 108, 100] <:+:
            [104, 101, 108, 108, 111, 32, 119, 111, 114, 108, 100]) ∧
        (¬ [119, 111, 114, 108, 100] <:+:
            [104, 101, 108, 108, 111, 32, 119, 111, 114, 108, 100] →
          sdssds [104, 101, 108, 108, 111, 32, 119, 111, 114, 108, 100]
            [119, 111, 114, 108, 100] [] = -1)) :=
  ⟨by decide, by decide, by decide, by decide,
    sdssds_zero_free [104, 101, 108, 108, 111, 32, 119, 111, 114, 108, 100]
      [119, 111, 114, 108, 100] [] (by decide) (by decide) (by decide) (by decide)⟩

/-- Below the range of the `int` index: for a subject of at most `2^31` bytes
and a set of non-zero bytes whose first byte occurs again further on in the
set, `sdschremove` returns the subject with every member of the set deleted. -/
theorem sdschremove_first_byte_repeated (s : List Nat) (c0 : Nat) (ct : List Nat)
    (hs : s.length ≤ 2 ^ 31) (hz : ∀ b ∈ c0 :: ct, b ≠ 0) (hrep : c0 ∈ ct) :
    sdschremove s (some (c0 :: ct)) = s.filter (fun b => decide (b ∉ c0 :: ct)) := by
  rw [sdschremove_small s _ hs]
  have h0 : c0 ≠ 0 := hz c0 (by simp)
  have hlen : strlen (c0 :: ct) ≠ 0 := by
    rw [strlen, if_neg h0]
    omega
  have hfull : ∀ x, inScan x (c0 :: ct) = decide (x ∈ c0 :: ct) :=
    fun x => inScan_eq_decide x (c0 :: ct) hz
  have hdrop : ∀ x, inScan x ((c0 :: ct).drop 1) = decide (x ∈ c0 :: ct) := by
    intro x
    have hmem : x ∈ c0 :: ct ↔ x ∈ ct := by
      constructor
      · intro hx
        rcases List.mem_cons.mp hx with rfl | hx
        · exact hrep
        · exact hx
      · exact fun hx => List.mem_cons_of_mem _ hx
    rw [List.drop_one, List.tail_cons,
      inScan_eq_decide x ct (fun b hb => hz b (List.mem_cons_of_mem _ hb))]
    exact decide_eq_decide.mpr hmem.symm
  by_cases hs0 : s = []
  · subst hs0
    simp
  · rw [if_neg (by simp [hs0, hlen])]
    exact purge_eq_filter (c0 :: ct) hdrop hfull s (c0 :: ct) hfull

/-- C18 (code evaluated at the failing input): for a subject of `2^31 + 1`
bytes `x` and the set "aa", whose first byte occurs again, `sdschremove`
returns `2^31` bytes `x` and not the subject, although no byte of the subject
is a member of the set. -/
theorem sdschremove_repeated_set_loses_byte :
    97 ∈ [97] ∧ 120 ∉ 97 :: [97] ∧
      sdschremove (List.replicate (2 ^ 31 + 1) 120) (some (97 :: [97]))
        = List.replicate (2 ^ 31) 120 ∧
      (sdschremove (List.replicate (2 ^ 31 + 1) 120) (some (97 :: [97]))).length
        < (List.replicate (2 ^ 31 + 1) 120).length := by
  have h := sdschremove_replicate_wrap 120 (97 :: [97]) (by decide) (by decide)
  refine ⟨by decide, by decide, h, ?_⟩
  rw [h, List.length_replicate, List.length_replicate]
  omega

/-- C19: the loops of `sdschremove` terminate for every subject and every set
buffer.  An iteration of the inner loop makes the pair (subject bytes left,
set bytes left) smaller in the lexicographic order, a reset of the cursor
included, since it comes with an advance of the subject index; the machine
started at `i = 0` reaches the code behind the loops after finitely many
steps, with the bytes that the loops of `sdschremove` write; and the subject
index never exceeds `len + 1` (nor `2^31 + 1`, where the 32-bit index has
passed `INT_MAX` and every test `i < len` fails). -/
theorem chremove_loops_terminate (s cset : List Nat) :
    (∀ i j dst, cset.getD j 0 ≠ 0 ∧ int_lt_size i s.length →
        (chremove_step s cset (LoopState.mk LoopPc.inner i j dst)).pc = LoopPc.inner ∧
        Prod.Lex (· < ·) (· < ·)
          (s.length - (chremove_step s cset (LoopState.mk LoopPc.inner i j dst)).i,
            cset.length - (chremove_step s cset (LoopState.mk LoopPc.inner i j dst)).j)
          (s.length - i, cset.length - j)) ∧
      (∃ n, (chremove_run s cset n (LoopState.mk LoopPc.outer 0 0 [])).pc = LoopPc.finished ∧
        (chremove_run s cset n (LoopState.mk LoopPc.outer 0 0 [])).dst
          = (chremove_outer s cset 0 []).1) ∧
      (∀ n, (chremove_run s cset n (LoopState.mk LoopPc.outer 0 0 [])).i ≤ s.length + 1 ∧
        (chremove_run s cset n (LoopState.mk LoopPc.outer 0 0 [])).i ≤ 2 ^ 31 + 1) := by
  refine ⟨?_, ?_, ?_⟩
  · intro i j dst h
    have hj := getD_ne_zero_lt h.1
    have hinc : int_incr i = i + 1 := int_incr_eq (by omega)
    simp only [chremove_step, if_pos h]
    split
    · exact ⟨rfl, Prod.Lex.left _ _ (by simp only; omega)⟩
    · exact ⟨rfl, Prod.Lex.right _ (by simp only; omega)⟩
  · obtain ⟨n, k, h⟩ := chremove_run_outer s cset 0 [] 0
    exact ⟨n, by rw [h], by rw [h]⟩
  · intro n
    exact chremove_run_bound s cset n _
      ⟨⟨by simp only; omega, by simp only; omega⟩, fun h => by cases h⟩

/-- C19 (witness): the subject "aa" with the set "a": the first iteration of
the inner loop removes a byte and resets the cursor, and the pair goes from
(2, 1) to (1, 0). -/
theorem chremove_loops_terminate_witness :
    ([97].getD 0 0 ≠ 0 ∧ int_lt_size 0 [97, 97].length) ∧
      (chremove_step [97, 97] [97] (LoopState.mk LoopPc.inner 0 0 [])).pc = LoopPc.inner ∧
      Prod.Lex (· < ·) (· < ·)
        ([97, 97].length - (chremove_step [97, 97] [97] (LoopState.mk LoopPc.inner 0 0 [])).i,
          [97].length - (chremove_step [97, 97] [97] (LoopState.mk LoopPc.inner 0 0 [])).j)
        ([97, 97].length - 0, [97].length - 0) :=
  ⟨⟨by decide, by decide⟩,
    (chremove_loops_terminate [97, 97] [97]).1 0 0 [] ⟨by decide, by decide⟩⟩

end SdsExtra
